import Mathlib

/-!
Verification of the cockpit-project/bots per-job execution pipeline
(`lib/aio/`): the log streamer (`s3streamer.py`), the upload queue
(`s3.py` / `util.py`), the LRU conditional cache (`util.py`), the forge
retry wrapper and PR polling (`github.py`), and the job supervisor
(`job.py`).  Each Python function the claims touch is shallowly embedded
as an executable Lean definition; theorems are stated over those
definitions.
-/

set_option maxHeartbeats 1000000

/-! ## Byte strings

`bytes` values are modelled as lists of naturals.  `str.encode()` /
JSON text written to the store is injected via `strBytes`. -/

abbrev Bytes := List Nat

/-- UTF-8 irrelevant detail aside, a `str` sent to the store is just its
character stream. -/
def strBytes (s : String) : Bytes := s.data.map Char.toNat

/-- `json.dumps` of a list of ints, as produced for `log.chunks`:
`json.dumps([1, 2])  == "[1, 2]"`. -/
def jsonDumps (l : List Nat) : String :=
  "[" ++ String.intercalate ", " (l.map toString) ++ "]"

/-! ## Blob names

The `LogStreamer` only ever names three kinds of blobs: `log`,
`log.chunks`, and `log.<start>-<end>`.  (`f'log.{suffix}'` with
`suffix = 'chunks'` or `suffix = f'{start}-{end}'`.) -/

inductive BlobName
  | log
  | chunks
  | seg (a b : Nat)
  deriving DecidableEq

/-- The actual filename string each `BlobName` stands for in the source. -/
def BlobName.render : BlobName → String
  | .log => "log"
  | .chunks => "log.chunks"
  | .seg a b => "log." ++ toString a ++ "-" ++ toString b

/-- A `Destination` operation, in the order it is issued (and, by the
FIFO upload queue, delivered). -/
inductive Ev
  | put (name : BlobName) (data : Bytes)
  | del (name : BlobName)
  deriving DecidableEq

/-- Members of `LogStreamer.suffixes` (a `set[str]` initialised to
`{'chunks'}`). -/
inductive Suffix
  | chunks
  | range (a b : Nat)
  deriving DecidableEq

def Suffix.blob : Suffix → BlobName
  | .chunks => .chunks
  | .range a b => .seg a b

/-- Python `set.add`: a no-op when the element is present.  (The model
keeps insertion order; the claims never depend on set iteration order.) -/
def insertSuffix (l : List Suffix) (x : Suffix) : List Suffix :=
  if x ∈ l then l else l ++ [x]

/-! ## LogStreamer state (`s3streamer.py`, class LogStreamer)

`chunks : list[list[bytes]]`, `pending : bytes`, `suffixes : set[str]`.
The `asyncio` timer is not part of the state: the 30-second timer
callback simply invokes `send_pending`, which the operation language
below exposes as an explicit `flush` step. -/

structure LS where
  chunks : List (List Bytes)
  suffixes : List Suffix
  pending : Bytes
  events : List Ev
  deriving DecidableEq

def initLS : LS := { chunks := [], suffixes := [.chunks], pending := [], events := [] }

def SIZE_LIMIT : Nat := 1000000

/-- The 2048 merge loop of `send_pending`, run on the *reversed* chunk
list (the Python loop edits the tail; recursion here edits the head):
`while len(chunks) > 1 and len(chunks[-1]) == len(chunks[-2]):
   last = pop(); second_last = pop(); append(second_last + last)`.
`a` is the current last chunk. -/
def mergeRevAux (a : List Bytes) : List (List Bytes) → List (List Bytes)
  | [] => [a]
  | b :: rest =>
    if a.length = b.length then mergeRevAux (b ++ a) rest else a :: b :: rest

def mergeRev : List (List Bytes) → List (List Bytes)
  | [] => []
  | a :: rest => mergeRevAux a rest

/-- `sum(len(block) for block in chunk)`. -/
def chunkBytes (c : List Bytes) : Nat := (c.map List.length).sum

/-- `LogStreamer.send_pending`. -/
def send_pending (s : LS) : LS :=
  -- self.chunks.append([self.pending]); self.pending = b''; then the 2048 loop
  let chunks := (mergeRev ((s.chunks ++ [[s.pending]]).reverse)).reverse
  let chunk_sizes := chunks.map chunkBytes
  if h : chunk_sizes = [] then
    -- `if chunk_sizes:` false — no segment write (unreachable here, kept for fidelity)
    { chunks := chunks, suffixes := s.suffixes, pending := [],
      events := s.events ++ [.put .chunks (strBytes (jsonDumps chunk_sizes))] }
  else
    let last_chunk_start := chunk_sizes.dropLast.sum
    let last_chunk_end := last_chunk_start + chunk_sizes.getLast h
    { chunks := chunks,
      suffixes := insertSuffix s.suffixes (.range last_chunk_start last_chunk_end),
      pending := [],
      events := s.events ++
        [.put (.seg last_chunk_start last_chunk_end) (chunks.getLast?.getD []).flatten,
         .put .chunks (strBytes (jsonDumps chunk_sizes))] }

/-- `LogStreamer.write`: append to `pending`; flush at once when the
size limit is exceeded (otherwise the source arms the 30 s timer, whose
later firing is the explicit `flush` operation below). -/
def writeB (data : Bytes) (s : LS) : LS :=
  let s' : LS := { s with pending := s.pending ++ data }
  if SIZE_LIMIT < s'.pending.length then send_pending s' else s'

/-- `LogStreamer.close`: write the single `log` blob, then delete every
`log.<suffix>` blob. -/
def closeLS (s : LS) : LS :=
  let everything := (s.chunks.map (fun chunk => chunk.flatten)).flatten ++ s.pending
  { s with
    events := s.events ++ [.put .log everything] ++
      s.suffixes.map (fun suffix => .del suffix.blob) }

/-- Operations driving a `LogStreamer` before `close`: a `write` call,
or the flush timer firing (`send_pending`). -/
inductive SOp
  | write (data : Bytes)
  | flush
  deriving DecidableEq

def stepLS (s : LS) : SOp → LS
  | .write d => writeB d s
  | .flush => send_pending s

def runLS (ops : List SOp) : LS := ops.foldl stepLS initLS

/-- All bytes ever passed to `write` across a run. -/
def allInput (ops : List SOp) : Bytes :=
  ops.foldl (fun acc op => match op with | .write d => acc ++ d | .flush => acc) []

/-- Bytes already consumed into `chunks` (flushed out of `pending`). -/
def flushed (s : LS) : Bytes := (s.chunks.map List.flatten).flatten

def sizesOf (s : LS) : List Nat := s.chunks.map chunkBytes

/-- Prefix sums of the chunk sizes: `S_i`. -/
def pfxSum (l : List Nat) (i : Nat) : Nat := (l.take i).sum

/-- The latest `log.chunks` manifest contents visible in a trace. -/
def lastManifest (evs : List Ev) : Option Bytes :=
  evs.foldl (fun acc e => match e with | .put .chunks d => some d | _ => acc) none

/-- Blobs present at the destination after a trace is delivered in
order (a later put overwrites, a delete removes). -/
def presentNames (evs : List Ev) : List BlobName :=
  evs.foldl (fun acc e =>
    match e with
    | .put n _ => if n ∈ acc then acc else acc ++ [n]
    | .del n => acc.erase n) []

def isSegName : BlobName → Bool
  | .seg _ _ => true
  | _ => false

def isLogPut : Ev → Bool
  | .put .log _ => true
  | _ => false

/-- Number of distinct `log.<a>-<b>` segment blobs present. -/
def segCount (evs : List Ev) : Nat := ((presentNames evs).filter isSegName).length

example : runLS [.write [65], .flush] =
  { chunks := [[[65]]], suffixes := [.chunks, .range 0 1], pending := [],
    events := [.put (.seg 0 1) [65], .put .chunks (strBytes "[1]")] } := by decide

example : segCount (runLS ((List.replicate 4 [SOp.write [0], SOp.flush]).flatten)).events = 4 := by
  decide

example : (runLS ((List.replicate 4 [SOp.write [0], SOp.flush]).flatten)).chunks =
    [[[0], [0], [0], [0]]] := by decide

/-! ## Upload queue (`s3.py`: HttpQueue.request / run_queue, `util.py`: AsyncQueue)

`run_queue` is the single consumer: it looks at the head of the FIFO
(`next` returns `self[0]` without popping), runs `request` on it to
completion (all retries included), and only then pops (`done`).  The
producer (`request_soon` / `put`) may append at any moment.  The model
is a small-step machine: `QOp.put` is a producer enqueue, `QOp.step`
lets the consumer perform its next server-visible attempt. -/

inductive S3Out
  | ok
  | respErr (status : Nat)
  | connErr
  deriving DecidableEq

/-- A queued HTTP request together with the outcome the server gives
each delivery attempt (attempts beyond the list succeed). -/
structure S3Req where
  id : Nat
  outcomes : List S3Out
  deriving DecidableEq

def attemptOut (r : S3Req) (k : Nat) : S3Out := r.outcomes.getD k .ok

/-- `except ClientResponseError: if status < 500: raise` /
`except ClientError: pass` — which failures are retried. -/
def s3Retryable : S3Out → Bool
  | .ok => false
  | .respErr status => 500 ≤ status
  | .connErr => true

structure QS where
  queue : List S3Req
  curAttempt : Nat
  dead : Bool
  trace : List (Nat × Nat)
  deriving DecidableEq

def initQS : QS := { queue := [], curAttempt := 0, dead := false, trace := [] }

/-- One consumer step of `run_queue`/`request`: deliver the next
attempt of the head request.  `for attempt in range(5)` retries with a
sleep on retryable failures; the sixth attempt (`curAttempt = 5`) is
the final `return await self.request_once(...)` whose exception
propagates — as does an immediate `raise` on a status < 500 — killing
the consumer task (`dead`). -/
def qstep (s : QS) : QS :=
  if s.dead then s else
  match s.queue with
  | [] => s
  | r :: rest =>
    let s' := { s with trace := s.trace ++ [(r.id, s.curAttempt)] }
    match attemptOut r s.curAttempt with
    | .ok => { s' with queue := rest, curAttempt := 0 }
    | .respErr status =>
      if status < 500 then { s' with dead := true }
      else if s.curAttempt < 5 then { s' with curAttempt := s.curAttempt + 1 }
      else { s' with dead := true }
    | .connErr =>
      if s.curAttempt < 5 then { s' with curAttempt := s.curAttempt + 1 }
      else { s' with dead := true }

inductive QOp
  | put (r : S3Req)
  | step
  deriving DecidableEq

def qapply (s : QS) : QOp → QS
  | .put r => { s with queue := s.queue ++ [r] }
  | .step => qstep s

def runQ (ops : List QOp) : QS := ops.foldl qapply initQS

/-- Requests enqueued by a schedule, in order. -/
def enqueued (ops : List QOp) : List S3Req :=
  ops.filterMap (fun op => match op with | .put r => some r | .step => none)

/-- The attempts a completed (popped) request contributed to the
server-visible trace: attempts `0..k`, every one before `k` a
retryable failure, attempt `k` a success. -/
def IsBlock (r : S3Req) (l : List (Nat × Nat)) : Prop :=
  ∃ k, attemptOut r k = .ok ∧ (∀ j, j < k → s3Retryable (attemptOut r j) = true) ∧
    l = (List.range (k + 1)).map (fun j => (r.id, j))

/-- Attempts already delivered for the request currently at the head of
the queue (one more than the retry counter once the consumer died on
it). -/
def curTrace (s : QS) : List (Nat × Nat) :=
  match s.queue.head? with
  | none => []
  | some r => (List.range (s.curAttempt + (if s.dead then 1 else 0))).map (fun j => (r.id, j))

example : runQ [.put ⟨1, [.respErr 503, .ok]⟩, .put ⟨2, []⟩, .step, .step, .step, .step] =
    { queue := [], curAttempt := 0, dead := false,
      trace := [(1, 0), (1, 1), (2, 0)] } := by decide

example : runQ [.put ⟨1, [.respErr 404]⟩, .put ⟨2, []⟩, .step, .step, .step] =
    { queue := [⟨1, [.respErr 404]⟩, ⟨2, []⟩], curAttempt := 0, dead := true,
      trace := [(1, 0)] } := by decide

/-! ## LRU cache (`util.py`, class LRUCache)

A Python `dict` keeps insertion order; the model is the ordered
key/value list, oldest first.  `add` removes any previous entry for the
key (`self.pop(key, None)`), appends the new one, then evicts from the
front `while len(self) > self.max_items`. -/

def evictLoop {K V : Type} (maxItems : Nat) : List (K × V) → List (K × V)
  | [] => []
  | p :: t => if maxItems < t.length + 1 then evictLoop maxItems t else p :: t

def lruAdd {K V : Type} [DecidableEq K] (maxItems : Nat) (c : List (K × V))
    (k : K) (v : V) : List (K × V) :=
  evictLoop maxItems ((c.filter (fun p => decide (p.1 ≠ k))) ++ [(k, v)])

def lruRun {K V : Type} [DecidableEq K] (maxItems : Nat) (ops : List (K × V)) :
    List (K × V) :=
  ops.foldl (fun c p => lruAdd maxItems c p.1 p.2) []

/-- The last `n` elements of a list. -/
def lastN {α : Type} (n : Nat) (l : List α) : List α := l.drop (l.length - n)

example : lruRun 2 [(1, 10), (2, 20), (3, 30), (1, 11)] = [(3, 30), (1, 11)] := by decide

example : (lruRun 2 [(1, 10), (2, 20), (3, 30), (2, 21)]).map Prod.fst =
    lastN 2 ([1, 2, 3, 2].dedup) := by decide

/-! ## Forge retry wrapper (`github.py`, `retry`)

`for attempt in range(4): try ... except; await asyncio.sleep(2 ** attempt)`
then one final attempt.  The environment `env` gives the outcome of
each attempt; the result is the trace of attempts and sleeps plus
what the call returns/raises. -/

inductive FOut
  | ok (v : Nat)
  | respErr (status : Nat)
  | connErr
  deriving DecidableEq

inductive REv
  | attempt (k : Nat)
  | sleep (secs : Nat)
  deriving DecidableEq

inductive RRes
  | success (v : Nat)
  | raised (e : FOut)
  deriving DecidableEq

def ghTransient : FOut → Bool
  | .ok _ => false
  | .respErr status => 500 ≤ status
  | .connErr => true

/-- The loop `for attempt in range(4)` with `rem` iterations left
(`rem = 4 - k` for attempt number `k`), then the final attempt:
`return await func()` with no exception handling. -/
def ghRetryGo (env : Nat → FOut) (k : Nat) : Nat → List REv × RRes
  | 0 =>
    ([.attempt k],
      match env k with
      | .ok v => .success v
      | e => .raised e)
  | rem + 1 =>
    match env k with
    | .ok v => ([.attempt k], .success v)
    | .respErr status =>
      if status < 500 then ([.attempt k], .raised (.respErr status))
      else
        let r := ghRetryGo env (k + 1) rem
        (.attempt k :: .sleep (2 ^ k) :: r.1, r.2)
    | .connErr =>
      let r := ghRetryGo env (k + 1) rem
      (.attempt k :: .sleep (2 ^ k) :: r.1, r.2)

def ghRetry (env : Nat → FOut) : List REv × RRes := ghRetryGo env 0 4

/-- The trace contributed by `k` failed-and-retried attempts:
attempt `j` then `sleep(2 ** j)`, for `j < k`. -/
def preTrace (k : Nat) : List REv :=
  ((List.range k).map (fun j => [REv.attempt j, REv.sleep (2 ^ j)])).flatten

example : ghRetry (fun k => [FOut.connErr, FOut.respErr 503, FOut.ok 7].getD k (FOut.ok 0)) =
    ([.attempt 0, .sleep 1, .attempt 1, .sleep 2, .attempt 2], .success 7) := rfl

/-! ## `jsonutil.py` / `GitHub.check_pr_changed` (`github.py`) -/

inductive JVal
  | str (s : String)
  | num (n : Int)
  | obj (fields : List (String × JVal))
  | arr (elems : List JVal)
  | boolean (b : Bool)
  | null

structure JErr where
  msg : String

/-- `typechecked(value, dict)`. -/
def typecheckedObj : JVal → Except JErr (List (String × JVal))
  | .obj fields => .ok fields
  | _ => .error ⟨"must have type dict"⟩

def lookupKey (o : List (String × JVal)) (key : String) : Option JVal :=
  (o.find? (fun p => p.1 == key)).map Prod.snd

/-- `get_str(obj, key)`: the attribute must exist and be a string. -/
def getStrJ (o : List (String × JVal)) (key : String) : Except JErr String :=
  match lookupKey o key with
  | none => .error ⟨"attribute " ++ key ++ " required"⟩
  | some (.str s) => .ok s
  | some _ => .error ⟨"attribute " ++ key ++ ": must have type str"⟩

/-- `get_dict(obj, key)`: the attribute must exist and be an object. -/
def getDictJ (o : List (String × JVal)) (key : String) :
    Except JErr (List (String × JVal)) :=
  match lookupKey o key with
  | none => .error ⟨"attribute " ++ key ++ " required"⟩
  | some (.obj fields) => .ok fields
  | some _ => .error ⟨"attribute " ++ key ++ ": must have type dict"⟩

/-- What the `get_obj` call inside `check_pr_changed` produced: a JSON
value, or an `aiohttp.ClientError` after the retry wrapper gave up. -/
inductive FetchOut
  | ok (v : JVal)
  | clientError

/-- The `try` body of `check_pr_changed`, with `JsonError` as `Except`. -/
def checkPrBody (repo : String) (pullNr : Nat) (expectedSha : String) (v : JVal) :
    Except JErr (Option String) := do
  let pull ← typecheckedObj v
  let state ← getStrJ pull "state"
  if state ≠ "open" then
    return some (repo ++ "#" ++ toString pullNr ++ " is closed")
  else
    let hd ← getDictJ pull "head"
    let sha ← getStrJ hd "sha"
    if sha ≠ expectedSha then
      return some (repo ++ "#" ++ toString pullNr ++ " changed")
    else
      return none

/-- `GitHub.check_pr_changed`: swallow transient `ClientError`s
(returning `None`), turn `JsonError` into a diagnostic string. -/
def check_pr_changed (repo : String) (pullNr : Nat) (expectedSha : String)
    (fetch : FetchOut) : Option String :=
  match fetch with
  | .clientError => none
  | .ok v =>
    match checkPrBody repo pullNr expectedSha v with
    | .error e => some ("Unexpected error when parsing pull request: " ++ e.msg)
    | .ok r => r

example : check_pr_changed "o/r" 42 "abc"
    (.ok (.obj [("state", .str "closed")])) = some "o/r#42 is closed" := rfl

example : check_pr_changed "o/r" 42 "abc"
    (.ok (.obj [("state", .str "open"), ("head", .obj [("sha", .str "fed")])])) =
    some "o/r#42 changed" := rfl

example : check_pr_changed "o/r" 42 "abc" .clientError = none := rfl

example : check_pr_changed "o/r" 42 "abc" (.ok (.obj [("state", .num 3)])) =
    some "Unexpected error when parsing pull request: attribute state: must have type str" := rfl

/-! ## Job supervisor task set (`job.py`, `run_job` / `timeout_minutes`) -/

/-- A task placed in `run_job`'s task set.  The timeout task carries
what it does: sleep `60 * minutes` seconds, then raise
`Failure(f'Timeout after {minutes} minutes')`. -/
inductive TaskSpec
  | container
  | timeoutTask (sleepSeconds : Int) (failMsg : String)
  | pollTask
  deriving DecidableEq

def timeoutTaskOf (minutes : Int) : TaskSpec :=
  .timeoutTask (60 * minutes) ("Timeout after " ++ toString minutes ++ " minutes")

/-- The task set built in `run_job`:
`tasks = {run_container(...)}`; `if job.timeout: tasks.add(timeout_minutes(job.timeout))`;
`if job.subject.pull is not None: tasks.add(poll_pr(...))`.
Python int truthiness makes the timeout guard `timeout != 0`. -/
def runJobTasks (timeout : Int) (hasPull : Bool) : List TaskSpec :=
  [.container] ++ (if timeout ≠ 0 then [timeoutTaskOf timeout] else []) ++
    (if hasPull then [.pollTask] else [])

example : runJobTasks 0 false = [.container] := rfl
example : runJobTasks 120 true =
    [.container, .timeoutTask 7200 "Timeout after 120 minutes", .pollTask] := rfl

/-! ## Commit statuses (`github.py`, class GitHubStatus) -/

structure StatusPayload where
  context : String
  state : String
  description : String
  target_url : String
  deriving DecidableEq

/-- `GitHubStatus.post(state, description)`: no-op when `context` is
`None`; otherwise POST a payload whose description is
`f'{description} [{platform.node()}]'`. -/
def github_status_post (context : Option String) (link : String) (hostname : String)
    (state description : String) : Option StatusPayload :=
  match context with
  | none => none
  | some ctx =>
    some { context := ctx, state := state,
           description := description ++ " [" ++ hostname ++ "]",
           target_url := link }

example : github_status_post (some "fedora") "http://l" "host1" "pending" "In progress" =
    some ⟨"fedora", "pending", "In progress [host1]", "http://l"⟩ := rfl

/-- The chunk list `send_pending` computes before deciding what to
upload. -/
def spChunks (s : LS) : List (List Bytes) :=
  (mergeRev ((s.chunks ++ [[s.pending]]).reverse)).reverse

/-- `send_pending` with the branch resolved (the size list is never
empty because a chunk was just appended), written with total accessors. -/
def spSizes (s : LS) : List Nat := (spChunks s).map chunkBytes

def spStart (s : LS) : Nat := (spSizes s).dropLast.sum

def spEnd (s : LS) : Nat := spStart s + ((spSizes s).getLast?.getD 0)

def spLast (s : LS) : Bytes := ((spChunks s).getLast?.getD []).flatten

/-- The merge loop seen through block counts only (`len(chunk)`).  Each
flush pushes a count of 1; equal adjacent counts merge by addition. -/
def mergeRevCAux (a : Nat) : List Nat → List Nat
  | [] => [a]
  | b :: rest => if a = b then mergeRevCAux (b + a) rest else a :: b :: rest

def IsPow2 (n : Nat) : Prop := ∃ k, n = 2 ^ k

/-- A strictly increasing list of powers of two (the reversed list of
per-chunk block counts, last chunk first): the binary-counter shape. -/
def BinRep (r : List Nat) : Prop :=
  (∀ c ∈ r, IsPow2 c) ∧ r.Chain' (· < ·)

/-- The full consumer/producer invariant of `run_queue`: the requests
enqueued so far split into a completed prefix `done` (still in enqueue
order) and the remaining queue; the server-visible trace is the
concatenation of the completed requests' attempt blocks, in enqueue
order, followed by attempts belonging only to the current queue head. -/
def QInv (ops : List QOp) (s : QS) : Prop :=
  ∃ done blocks,
    enqueued ops = done ++ s.queue ∧
    List.Forall₂ IsBlock done blocks ∧
    s.trace = blocks.flatten ++ curTrace s ∧
    (∀ r, s.queue.head? = some r →
      ∀ j, j < s.curAttempt → s3Retryable (attemptOut r j) = true) ∧
    (s.queue = [] → s.curAttempt = 0 ∧ s.dead = false) ∧
    (s.dead = true → s.queue ≠ [])

/-- Everything that holds of every reachable (pre-`close`)
`LogStreamer` state. -/
structure LSInv (s : LS) : Prop where
  names : ∀ e ∈ s.events,
    (∃ d, e = .put .chunks d) ∨ (∃ a b d, e = .put (.seg a b) d)
  slices : ∀ a b d, Ev.put (.seg a b) d ∈ s.events →
    b ≤ (flushed s).length ∧ b = a + d.length ∧ d = ((flushed s).take b).drop a
  cover : ∀ i c, s.chunks[i]? = some c →
    Ev.put (.seg (pfxSum (sizesOf s) i) (pfxSum (sizesOf s) (i + 1)))
      c.flatten ∈ s.events
  manifest0 : s.chunks = [] → s.events = []
  manifest : s.chunks ≠ [] →
    lastManifest s.events = some (strBytes (jsonDumps (sizesOf s)))
  sufSeg : ∀ a b d, Ev.put (.seg a b) d ∈ s.events →
    Suffix.range a b ∈ s.suffixes
  chunksBase : Suffix.chunks ∈ s.suffixes
  binShape : BinRep ((s.chunks.map List.length).reverse)

/-- `N` writes of the same chunk, each followed by a flush. -/
def scenarioOps (d : Bytes) : Nat → List SOp
  | 0 => []
  | n + 1 => scenarioOps d n ++ [SOp.write d, SOp.flush]

/-! ## Helper lemmas for the retry wrapper -/

theorem preTrace_succ (k : Nat) :
    preTrace (k + 1) = preTrace k ++ [REv.attempt k, REv.sleep (2 ^ k)] := by
  simp [preTrace, List.range_succ]

theorem ghRetryGo_transient (env : Nat → FOut) (k rem : Nat)
    (ht : ghTransient (env k) = true) :
    ghRetryGo env k (rem + 1) =
      (.attempt k :: .sleep (2 ^ k) :: (ghRetryGo env (k + 1) rem).1,
        (ghRetryGo env (k + 1) rem).2) := by
  simp only [ghRetryGo]
  cases henv : env k with
  | ok v => simp [ghTransient, henv] at ht
  | respErr status =>
    simp only [ghTransient, henv, decide_eq_true_eq] at ht
    simp only [henv, if_neg (by omega : ¬ status < 500)]
  | connErr => simp only [henv]

theorem ghRetry_skip (env : Nat → FOut) :
    ∀ k, k ≤ 4 → (∀ j, j < k → ghTransient (env j) = true) →
      ghRetry env =
        (preTrace k ++ (ghRetryGo env k (4 - k)).1, (ghRetryGo env k (4 - k)).2) := by
  intro k
  induction k with
  | zero => intro _ _; simp [ghRetry, preTrace]
  | succ n ih =>
    intro hle htr
    have hrec := ih (by omega) (fun j hj => htr j (by omega))
    have hstep := ghRetryGo_transient env n (4 - (n + 1)) (htr n (by omega))
    have h4 : 4 - n = (4 - (n + 1)) + 1 := by omega
    rw [h4] at hrec
    rw [hrec, hstep, preTrace_succ]
    simp

theorem ghRetryGo_head (env : Nat → FOut) (k rem : Nat) :
    ∃ rest, (ghRetryGo env k rem).1 = .attempt k :: rest := by
  cases rem with
  | zero => exact ⟨[], rfl⟩
  | succ m =>
    simp only [ghRetryGo]
    cases henv : env k with
    | ok v => exact ⟨[], rfl⟩
    | respErr status =>
      by_cases h : status < 500
      · refine ⟨[], ?_⟩
        simp [h]
      · refine ⟨.sleep (2 ^ k) :: (ghRetryGo env (k + 1) m).1, ?_⟩
        simp [h]
    | connErr => exact ⟨.sleep (2 ^ k) :: (ghRetryGo env (k + 1) m).1, rfl⟩

/-- C5: for every GET/POST via the forge retry wrapper, transient
failures (connection errors or HTTP status ≥ 500) are retried after
delays 1, 2, 4, 8 seconds (four attempts in the loop), then a fifth
and final attempt is made whose exception propagates to the caller; an
HTTP response error with status < 500 raises immediately, with no
retry and no delay. -/
theorem C5_forge_retry_policy (env : Nat → FOut) :
    (∀ k status, k ≤ 4 → (∀ j, j < k → ghTransient (env j) = true) →
      env k = .respErr status → status < 500 →
      ghRetry env = (preTrace k ++ [.attempt k], .raised (.respErr status))) ∧
    ((∀ j, j < 4 → ghTransient (env j) = true) →
      ghRetry env = (preTrace 4 ++ [.attempt 4],
        match env 4 with
        | .ok v => .success v
        | e => .raised e) ∧
      preTrace 4 =
        [.attempt 0, .sleep 1, .attempt 1, .sleep 2, .attempt 2, .sleep 4,
         .attempt 3, .sleep 8]) ∧
    (∀ k, k ≤ 4 → (∀ j, j < k → ghTransient (env j) = true) →
      ∃ rest res, ghRetry env = (preTrace k ++ [.attempt k] ++ rest, res)) := by
  refine ⟨?_, ?_, ?_⟩
  · intro k status hk htr henv hlt
    rw [ghRetry_skip env k hk htr]
    rcases Nat.lt_or_ge k 4 with h4 | h4
    · have : 4 - k = (4 - (k + 1)) + 1 := by omega
      rw [this]
      unfold ghRetryGo
      simp [henv, hlt]
    · have hk4 : k = 4 := by omega
      subst hk4
      simp only [Nat.sub_self]
      unfold ghRetryGo
      simp [henv]
  · intro htr
    refine ⟨?_, by decide⟩
    rw [ghRetry_skip env 4 (by omega) htr]
    simp only [Nat.sub_self]
    unfold ghRetryGo
    rfl
  · intro k hk htr
    rw [ghRetry_skip env k hk htr]
    obtain ⟨rest, hrest⟩ := ghRetryGo_head env k (4 - k)
    refine ⟨rest, (ghRetryGo env k (4 - k)).2, ?_⟩
    rw [hrest]
    simp

/-- Witness for C5 at concrete environments: an immediate 404 raises
with no retry; two transient failures are followed by attempt 2. -/
theorem C5_forge_retry_policy_witness :
    ghRetry (fun k => [FOut.respErr 404].getD k (FOut.ok 0)) =
      ([.attempt 0], .raised (.respErr 404)) ∧
    (∃ rest res,
      ghRetry (fun k => [FOut.connErr, FOut.respErr 503, FOut.ok 7].getD k (FOut.ok 0)) =
        (preTrace 2 ++ [.attempt 2] ++ rest, res)) := by
  constructor
  · have := (C5_forge_retry_policy (fun k => [FOut.respErr 404].getD k (FOut.ok 0))).1
      0 404 (by omega) (by omega) rfl (by omega)
    simpa [preTrace] using this
  · exact (C5_forge_retry_policy
      (fun k => [FOut.connErr, FOut.respErr 503, FOut.ok 7].getD k (FOut.ok 0))).2.2
      2 (by omega) (by decide)

/-- C6: `check_pr_changed(repo, pull_nr, expected_sha)` returns
`'{repo}#{pull_nr} is closed'` when the pull request's state is not
"open", `'{repo}#{pull_nr} changed'` when `head.sha` differs from the
expected sha, `None` (without raising) on an HTTP client error, a
diagnostic string on a JSON schema error, and `None` otherwise. -/
theorem C6_check_pr_changed_semantics (repo : String) (n : Nat) (expected : String) :
    (check_pr_changed repo n expected .clientError = none) ∧
    (∀ v fields st, typecheckedObj v = .ok fields → getStrJ fields "state" = .ok st →
      st ≠ "open" →
      check_pr_changed repo n expected (.ok v) =
        some (repo ++ "#" ++ toString n ++ " is closed")) ∧
    (∀ v fields hd sha, typecheckedObj v = .ok fields →
      getStrJ fields "state" = .ok "open" → getDictJ fields "head" = .ok hd →
      getStrJ hd "sha" = .ok sha → sha ≠ expected →
      check_pr_changed repo n expected (.ok v) =
        some (repo ++ "#" ++ toString n ++ " changed")) ∧
    (∀ v e, checkPrBody repo n expected v = .error e →
      check_pr_changed repo n expected (.ok v) =
        some ("Unexpected error when parsing pull request: " ++ e.msg)) ∧
    (∀ v fields hd, typecheckedObj v = .ok fields →
      getStrJ fields "state" = .ok "open" → getDictJ fields "head" = .ok hd →
      getStrJ hd "sha" = .ok expected →
      check_pr_changed repo n expected (.ok v) = none) := by
  refine ⟨rfl, ?_, ?_, ?_, ?_⟩
  · intro v fields st h1 h2 h3
    simp [check_pr_changed, checkPrBody, h1, h2, h3, Bind.bind, Except.bind, Pure.pure, Except.pure]
  · intro v fields hd sha h1 h2 h3 h4 h5
    simp [check_pr_changed, checkPrBody, h1, h2, h3, h4, h5, Bind.bind, Except.bind, Pure.pure, Except.pure]
  · intro v e h
    simp [check_pr_changed, h]
  · intro v fields hd h1 h2 h3 h4
    simp [check_pr_changed, checkPrBody, h1, h2, h3, h4, Bind.bind, Except.bind, Pure.pure, Except.pure]

/-- Witness for C6 at concrete pull-request JSON values. -/
theorem C6_check_pr_changed_semantics_witness :
    check_pr_changed "o/r" 42 "abc" (.ok (.obj [("state", .str "merged")])) =
      some "o/r#42 is closed" := by
  have h := (C6_check_pr_changed_semantics "o/r" 42 "abc").2.1
    (.obj [("state", .str "merged")]) [("state", .str "merged")] "merged"
    rfl rfl (by decide)
  simpa using h

/-- C9: `run_job` adds the timeout task to the task set only when
`job.timeout` is non-zero; with `timeout = 0` no timeout `Failure` can
ever be raised, and with non-zero timeout `t` the task sleeps `60 * t`
seconds and raises `Failure(f'Timeout after {t} minutes')`. -/
theorem C9_timeout_task_only_when_nonzero (timeout : Int) (hasPull : Bool) :
    (timeout = 0 →
      ∀ s m, TaskSpec.timeoutTask s m ∉ runJobTasks timeout hasPull) ∧
    (timeout ≠ 0 →
      timeoutTaskOf timeout ∈ runJobTasks timeout hasPull ∧
      timeoutTaskOf timeout =
        .timeoutTask (60 * timeout)
          ("Timeout after " ++ toString timeout ++ " minutes")) := by
  constructor
  · intro h0 s m
    subst h0
    cases hasPull <;> simp [runJobTasks, timeoutTaskOf]
  · intro hne
    refine ⟨?_, rfl⟩
    cases hasPull <;> simp [runJobTasks, hne, timeoutTaskOf]

/-- Witness for C9 at `timeout = 0` and `timeout = 120`. -/
theorem C9_timeout_task_only_when_nonzero_witness :
    (TaskSpec.timeoutTask 0 "Timeout after 0 minutes" ∉ runJobTasks 0 true) ∧
    timeoutTaskOf 120 ∈ runJobTasks 120 true := by
  constructor
  · exact (C9_timeout_task_only_when_nonzero 0 true).1 rfl 0 "Timeout after 0 minutes"
  · exact ((C9_timeout_task_only_when_nonzero 120 true).2 (by decide)).1

/-- C10: every commit status actually posted carries the description
`f'{description} [{hostname}]'`, which is never equal to the bare
supplied description. -/
theorem C10_status_description_suffixed (context : Option String)
    (link hostname state description : String) (p : StatusPayload) :
    github_status_post context link hostname state description = some p →
    p.description = description ++ " [" ++ hostname ++ "]" ∧
    p.description ≠ description := by
  intro h
  cases context with
  | none => simp [github_status_post] at h
  | some ctx =>
    simp only [github_status_post, Option.some.injEq] at h
    subst h
    refine ⟨rfl, ?_⟩
    intro heq
    have hlen := congrArg String.length heq
    simp only [String.length_append] at hlen
    have h2 : (" [" : String).length = 2 := rfl
    have h3 : ("]" : String).length = 1 := rfl
    omega

/-- Witness for C10 at a concrete posted status. -/
theorem C10_status_description_suffixed_witness :
    ("In progress [host1]" : String) = "In progress" ++ " [" ++ "host1" ++ "]" ∧
    ("In progress [host1]" : String) ≠ "In progress" := by
  exact C10_status_description_suffixed (some "fedora") "http://l" "host1" "pending"
    "In progress" ⟨"fedora", "pending", "In progress [host1]", "http://l"⟩ rfl

/-! ## Helper lemmas for the LRU cache -/

theorem evictLoop_eq_drop {K V : Type} (m : Nat) (c : List (K × V)) :
    evictLoop m c = c.drop (c.length - m) := by
  induction c with
  | nil => simp [evictLoop]
  | cons p t ih =>
    simp only [evictLoop, List.length_cons]
    by_cases h : m < t.length + 1
    · rw [if_pos h, ih]
      have harith : t.length + 1 - m = (t.length - m) + 1 := by omega
      rw [harith, List.drop_succ_cons]
    · rw [if_neg h]
      have harith : t.length + 1 - m = 0 := by omega
      rw [harith, List.drop_zero]

theorem lastN_of_le {α : Type} {m : Nat} {l : List α} (h : l.length ≤ m) :
    lastN m l = l := by
  simp [lastN, Nat.sub_eq_zero_of_le h]

theorem lastN_append_of_le {α : Type} {m : Nat} (X Y : List α) (h : m ≤ Y.length) :
    lastN m (X ++ Y) = lastN m Y := by
  unfold lastN
  have harith : X.length + Y.length - m = X.length + (Y.length - m) := by omega
  rw [List.length_append, harith, List.drop_append]

theorem length_lastN {α : Type} (m : Nat) (l : List α) : (lastN m l).length ≤ m := by
  simp [lastN]
  omega

theorem map_fst_filter_ne {K V : Type} [DecidableEq K] (c : List (K × V)) (k : K) :
    (c.filter (fun p => decide (p.1 ≠ k))).map Prod.fst =
      (c.map Prod.fst).filter (fun x => decide (x ≠ k)) := by
  rw [List.filter_map]
  congr 1

theorem dedup_append_singleton {K : Type} [DecidableEq K] (l : List K) (k : K) :
    (l ++ [k]).dedup = l.dedup.filter (fun x => decide (x ≠ k)) ++ [k] := by
  induction l with
  | nil => simp
  | cons a t ih =>
    rw [List.cons_append]
    by_cases hat : a ∈ t
    · rw [List.dedup_cons_of_mem (List.mem_append_left _ hat), ih,
        List.dedup_cons_of_mem hat]
    · by_cases hak : a = k
      · subst hak
        rw [List.dedup_cons_of_mem (List.mem_append_right _ (List.mem_singleton_self a)),
          ih, List.dedup_cons_of_not_mem hat, List.filter_cons]
        simp
      · rw [List.dedup_cons_of_not_mem (by simp [hat, hak]), ih,
          List.dedup_cons_of_not_mem hat, List.filter_cons]
        simp [hak]

theorem filter_ne_length_ge {K : Type} [DecidableEq K] (S : List K) (k : K)
    (h : S.Nodup) :
    S.length - 1 ≤ (S.filter (fun x => decide (x ≠ k))).length := by
  induction S with
  | nil => simp
  | cons a t ih =>
    obtain ⟨hnotmem, hnd⟩ := List.nodup_cons.mp h
    by_cases hak : a = k
    · subst hak
      have hfe : t.filter (fun x => !decide (x = a)) = t :=
        List.filter_eq_self.mpr (fun b hb => by
          simp only [Bool.not_eq_true', decide_eq_false_iff_not]
          intro hba
          exact hnotmem (hba ▸ hb))
      simp [List.filter_cons, hfe]
    · have hlt := ih hnd
      rw [List.filter_cons, if_pos (by simp [hak])]
      simp only [List.length_cons]
      omega

theorem evictLoop_eq_lastN {K V : Type} (m : Nat) (c : List (K × V)) :
    evictLoop m c = lastN m c := evictLoop_eq_drop m c

theorem map_lastN {α β : Type} (f : α → β) (m : Nat) (l : List α) :
    (lastN m l).map f = lastN m (l.map f) := by
  simp [lastN, List.map_drop]

theorem lruAdd_keys {K V : Type} [DecidableEq K] (m : Nat) (c : List (K × V))
    (k : K) (v : V) :
    (lruAdd m c k v).map Prod.fst =
      lastN m ((c.map Prod.fst).filter (fun x => decide (x ≠ k)) ++ [k]) := by
  rw [lruAdd, evictLoop_eq_lastN, map_lastN, List.map_append, map_fst_filter_ne]
  rfl

/-- The one-step commutation at key level: adding `k` to a cache whose
keys are the last `m` of the nodup list `L` gives the last `m` of
`L.filter (≠ k) ++ [k]`. -/
theorem lru_step_keys {K : Type} [DecidableEq K] (m : Nat) (L : List K) (k : K)
    (hnd : L.Nodup) :
    lastN m ((lastN m L).filter (fun x => decide (x ≠ k)) ++ [k]) =
      lastN m (L.filter (fun x => decide (x ≠ k)) ++ [k]) := by
  by_cases hlen : L.length ≤ m
  · rw [lastN_of_le hlen]
  · have hSlen : (lastN m L).length = m := by
      simp only [lastN, List.length_drop]
      omega
    have hSnd : (lastN m L).Nodup := hnd.sublist (List.drop_sublist _ _)
    have hfl := filter_ne_length_ge (lastN m L) k hSnd
    have hsplit : L.filter (fun x => decide (x ≠ k)) =
        (L.take (L.length - m)).filter (fun x => decide (x ≠ k)) ++
          (lastN m L).filter (fun x => decide (x ≠ k)) := by
      conv_lhs => rw [← List.take_append_drop (L.length - m) L]
      rw [List.filter_append]
      rfl
    have hY : m ≤ ((lastN m L).filter (fun x => decide (x ≠ k)) ++ [k]).length := by
      rw [List.length_append, List.length_singleton]
      omega
    rw [hsplit, List.append_assoc, lastN_append_of_le _ _ hY]

/-- After any sequence of `add` calls from empty, the cache holds (in
insertion order) exactly the last `m` distinct keys of the access
sequence, keyed by their final occurrence. -/
theorem lruRun_keys {K V : Type} [DecidableEq K] (m : Nat) (ops : List (K × V)) :
    (lruRun m ops).map Prod.fst = lastN m ((ops.map Prod.fst).dedup) := by
  induction ops using List.reverseRecOn with
  | nil => simp [lruRun, lastN]
  | append_singleton ops p ih =>
    have hrun : lruRun m (ops ++ [p]) = lruAdd m (lruRun m ops) p.1 p.2 := by
      simp [lruRun, List.foldl_append]
    rw [hrun, lruAdd_keys, ih, lru_step_keys m _ p.1 (List.nodup_dedup _),
      ← dedup_append_singleton]
    simp

/-- C4: the LRU conditional cache with capacity `m`: never more than
`m` resident entries; the resident keys are exactly the `m`
most-recently-added/refreshed keys in order; `add` on an existing key
moves it to the most-recently-used position; when the capacity is
exceeded the least-recently-added (front) entry is evicted. -/
theorem C4_lru_cache (K V : Type) [DecidableEq K] (m : Nat) :
    (∀ ops : List (K × V), (lruRun m ops).length ≤ m) ∧
    (∀ ops : List (K × V),
      (lruRun m ops).map Prod.fst = lastN m ((ops.map Prod.fst).dedup)) ∧
    (∀ (c : List (K × V)) (k : K) (v : V), 1 ≤ m →
      (lruAdd m c k v).getLast? = some (k, v)) ∧
    (∀ (c : List (K × V)) (k : K) (v : V), c.length = m → 1 ≤ m →
      (∀ p ∈ c, p.1 ≠ k) → lruAdd m c k v = c.tail ++ [(k, v)]) := by
  refine ⟨?_, lruRun_keys m, ?_, ?_⟩
  · intro ops
    have h := lruRun_keys (V := V) m ops
    have hlen := congrArg List.length h
    rw [List.length_map] at hlen
    rw [hlen]
    exact length_lastN _ _
  · intro c k v hm
    rw [lruAdd, evictLoop_eq_lastN, lastN,
      List.drop_append_of_le_length (by simp; omega), List.getLast?_concat]
  · intro c k v hclen hm hfree
    have hfe : c.filter (fun p => decide (p.1 ≠ k)) = c :=
      List.filter_eq_self.mpr (fun p hp => by
        simp only [decide_eq_true_eq]
        exact hfree p hp)
    rw [lruAdd, hfe, evictLoop_eq_lastN, lastN, List.length_append, hclen,
      List.length_singleton, Nat.add_sub_cancel_left,
      List.drop_append_of_le_length (by omega), List.drop_one]

/-- Witness for C4 at a concrete access sequence over `Nat` keys. -/
theorem C4_lru_cache_witness :
    ((lruRun 2 [(1, 10), (2, 20), (3, 30), (1, 11)] : List (Nat × Nat)).map Prod.fst =
      lastN 2 (([1, 2, 3, 1] : List Nat).dedup)) ∧
    (lruAdd 2 [(2, 20), (3, 30)] 4 (40 : Nat)).getLast? = some (4, 40) := by
  constructor
  · have h := (C4_lru_cache Nat Nat 2).2.1 [(1, 10), (2, 20), (3, 30), (1, 11)]
    simpa using h
  · exact (C4_lru_cache Nat Nat 2).2.2.1 [(2, 20), (3, 30)] 4 40 (by omega)

/-! ## Helper lemmas for the upload queue -/

theorem qstep_ok (s : QS) (r : S3Req) (rest : List S3Req) (hd : s.dead = false)
    (hq : s.queue = r :: rest) (hout : attemptOut r s.curAttempt = .ok) :
    qstep s = { s with trace := s.trace ++ [(r.id, s.curAttempt)],
                       queue := rest, curAttempt := 0 } := by
  simp [qstep, hd, hq, hout]

theorem qstep_retry (s : QS) (r : S3Req) (rest : List S3Req) (hd : s.dead = false)
    (hq : s.queue = r :: rest)
    (hout : attemptOut r s.curAttempt = .connErr ∨
      ∃ status, attemptOut r s.curAttempt = .respErr status ∧ 500 ≤ status)
    (h5 : s.curAttempt < 5) :
    qstep s = { s with trace := s.trace ++ [(r.id, s.curAttempt)],
                       curAttempt := s.curAttempt + 1 } := by
  rcases hout with h | ⟨status, h, hst⟩
  · simp [qstep, hd, hq, h, h5]
  · simp [qstep, hd, hq, h, h5, Nat.not_lt.mpr hst]

theorem qstep_fatal (s : QS) (r : S3Req) (rest : List S3Req) (hd : s.dead = false)
    (hq : s.queue = r :: rest)
    (hout : (∃ status, attemptOut r s.curAttempt = .respErr status ∧ status < 500) ∨
      (¬ s.curAttempt < 5 ∧ (attemptOut r s.curAttempt = .connErr ∨
        ∃ status, attemptOut r s.curAttempt = .respErr status ∧ 500 ≤ status))) :
    qstep s = { s with trace := s.trace ++ [(r.id, s.curAttempt)], dead := true } := by
  rcases hout with ⟨status, h, hst⟩ | ⟨h5, h | ⟨status, h, hst⟩⟩
  · simp [qstep, hd, hq, h, hst]
  · simp [qstep, hd, hq, h, h5]
  · simp [qstep, hd, hq, h, h5, Nat.not_lt.mpr hst]


theorem enqueued_append_put (ops : List QOp) (r : S3Req) :
    enqueued (ops ++ [.put r]) = enqueued ops ++ [r] := by
  simp [enqueued]

theorem enqueued_append_step (ops : List QOp) :
    enqueued (ops ++ [.step]) = enqueued ops := by
  simp [enqueued]

theorem runQ_append (ops : List QOp) (op : QOp) :
    runQ (ops ++ [op]) = qapply (runQ ops) op := by
  simp [runQ, List.foldl_append]

theorem QInv_init : QInv [] initQS :=
  ⟨[], [], rfl, List.Forall₂.nil, rfl,
    fun r hr => by simp [initQS] at hr,
    fun _ => ⟨rfl, rfl⟩,
    fun h => by simp [initQS] at h⟩

theorem QInv_put (ops : List QOp) (s : QS) (h : QInv ops s) (r : S3Req) :
    QInv (ops ++ [.put r]) (qapply s (.put r)) := by
  obtain ⟨done, blocks, henq, hblocks, htrace, hside, hempty, hdead⟩ := h
  have hcur : curTrace (qapply s (.put r)) = curTrace s := by
    cases hq : s.queue with
    | nil =>
      obtain ⟨hc0, hd0⟩ := hempty hq
      simp [curTrace, qapply, hq, hc0, hd0]
    | cons a t => simp [curTrace, qapply, hq]
  refine ⟨done, blocks, ?_, hblocks, ?_, ?_, ?_, ?_⟩
  · rw [enqueued_append_put, henq]
    simp [qapply]
  · rw [hcur]
    exact htrace
  · intro r' hr' j hj
    cases hq : s.queue with
    | nil =>
      obtain ⟨hc0, _⟩ := hempty hq
      exact absurd hj (by simp [qapply, hc0])
    | cons a t =>
      refine hside r' ?_ j hj
      simp only [qapply, hq, List.cons_append, List.head?_cons, Option.some.injEq] at hr'
      rw [hq, List.head?_cons, hr']
  · intro habs
    exact absurd habs (by simp [qapply])
  · intro _
    simp only [qapply, ne_eq, List.append_eq_nil]
    simp

theorem QInv_step (ops : List QOp) (s : QS) (h : QInv ops s) :
    QInv (ops ++ [.step]) (qapply s .step) := by
  obtain ⟨done, blocks, henq, hblocks, htrace, hside, hempty, hdead⟩ := h
  rw [show qapply s .step = qstep s from rfl]
  by_cases hd : s.dead
  · rw [show qstep s = s by simp [qstep, hd]]
    exact ⟨done, blocks, by rw [enqueued_append_step]; exact henq, hblocks, htrace,
      hside, hempty, hdead⟩
  · have hbd : s.dead = false := by simpa using hd
    cases hq : s.queue with
    | nil =>
      rw [show qstep s = s by simp [qstep, hbd, hq]]
      exact ⟨done, blocks, by rw [enqueued_append_step]; exact henq, hblocks, htrace,
        hside, hempty, hdead⟩
    | cons r rest =>
      have hct : curTrace s = (List.range s.curAttempt).map (fun j => (r.id, j)) := by
        simp [curTrace, hq, hbd]
      have hheadside : ∀ j, j < s.curAttempt → s3Retryable (attemptOut r j) = true :=
        hside r (by rw [hq]; rfl)
      cases hout : attemptOut r s.curAttempt with
      | ok =>
        rw [qstep_ok s r rest hbd hq hout]
        refine ⟨done ++ [r],
          blocks ++ [(List.range (s.curAttempt + 1)).map (fun j => (r.id, j))],
          ?_, ?_, ?_, ?_, ?_, ?_⟩
        · rw [enqueued_append_step, henq, hq]
          simp
        · exact List.rel_append hblocks
            (List.forall₂_cons.mpr ⟨⟨s.curAttempt, hout, hheadside, rfl⟩,
              List.Forall₂.nil⟩)
        · have hcnew : curTrace { s with trace := s.trace ++ [(r.id, s.curAttempt)], queue := rest, curAttempt := 0 } = [] := by
            cases hrest : rest <;> simp [curTrace, hbd]
          rw [hcnew]
          simp only [htrace, hct, List.flatten_append, List.flatten_cons,
            List.flatten_nil, List.append_nil, List.append_assoc]
          simp [List.range_succ]
        · intro r' hr' j hj
          exact absurd hj (by simp)
        · intro _
          exact ⟨rfl, hbd⟩
        · intro habs
          exact absurd habs (by simp [hbd])
      | respErr status =>
        by_cases hlt : status < 500
        · rw [qstep_fatal s r rest hbd hq (Or.inl ⟨status, hout, hlt⟩)]
          refine ⟨done, blocks, ?_, hblocks, ?_, ?_, ?_, ?_⟩
          · rw [enqueued_append_step, henq]
          · have hcnew : curTrace { s with trace := s.trace ++ [(r.id, s.curAttempt)], dead := true } = (List.range (s.curAttempt + 1)).map (fun j => (r.id, j)) := by
              simp [curTrace, hq]
            rw [hcnew, htrace, hct]
            simp [List.range_succ]
          · intro r' hr' j hj
            simp only [hq, List.head?_cons, Option.some.injEq] at hr'
            subst hr'
            exact hheadside j hj
          · intro habs
            exact absurd habs (by simp [hq])
          · intro _
            simp [hq]
        · by_cases h5 : s.curAttempt < 5
          · rw [qstep_retry s r rest hbd hq
              (Or.inr ⟨status, hout, by omega⟩) h5]
            refine ⟨done, blocks, ?_, hblocks, ?_, ?_, ?_, ?_⟩
            · rw [enqueued_append_step, henq]
            · have hcnew : curTrace { s with trace := s.trace ++ [(r.id, s.curAttempt)], curAttempt := s.curAttempt + 1 } = (List.range (s.curAttempt + 1)).map (fun j => (r.id, j)) := by
                simp [curTrace, hq, hbd]
              rw [hcnew, htrace, hct]
              simp [List.range_succ]
            · intro r' hr' j hj
              simp only [hq, List.head?_cons, Option.some.injEq] at hr'
              subst hr'
              simp only at hj
              rcases Nat.lt_or_ge j s.curAttempt with hj' | hj'
              · exact hheadside j hj'
              · have hje : j = s.curAttempt := by omega
                subst hje
                simp only [s3Retryable, hout, decide_eq_true_eq]
                omega
            · intro habs
              exact absurd habs (by simp [hq])
            · intro _
              simp [hq]
          · rw [qstep_fatal s r rest hbd hq
              (Or.inr ⟨h5, Or.inr ⟨status, hout, by omega⟩⟩)]
            refine ⟨done, blocks, ?_, hblocks, ?_, ?_, ?_, ?_⟩
            · rw [enqueued_append_step, henq]
            · have hcnew : curTrace { s with trace := s.trace ++ [(r.id, s.curAttempt)], dead := true } = (List.range (s.curAttempt + 1)).map (fun j => (r.id, j)) := by
                simp [curTrace, hq]
              rw [hcnew, htrace, hct]
              simp [List.range_succ]
            · intro r' hr' j hj
              simp only [hq, List.head?_cons, Option.some.injEq] at hr'
              subst hr'
              exact hheadside j hj
            · intro habs
              exact absurd habs (by simp [hq])
            · intro _
              simp [hq]
      | connErr =>
        by_cases h5 : s.curAttempt < 5
        · rw [qstep_retry s r rest hbd hq (Or.inl hout) h5]
          refine ⟨done, blocks, ?_, hblocks, ?_, ?_, ?_, ?_⟩
          · rw [enqueued_append_step, henq]
          · have hcnew : curTrace { s with trace := s.trace ++ [(r.id, s.curAttempt)], curAttempt := s.curAttempt + 1 } = (List.range (s.curAttempt + 1)).map (fun j => (r.id, j)) := by
              simp [curTrace, hq, hbd]
            rw [hcnew, htrace, hct]
            simp [List.range_succ]
          · intro r' hr' j hj
            simp only [hq, List.head?_cons, Option.some.injEq] at hr'
            subst hr'
            simp only at hj
            rcases Nat.lt_or_ge j s.curAttempt with hj' | hj'
            · exact hheadside j hj'
            · have hje : j = s.curAttempt := by omega
              subst hje
              simp [s3Retryable, hout]
          · intro habs
            exact absurd habs (by simp [hq])
          · intro _
            simp [hq]
        · rw [qstep_fatal s r rest hbd hq (Or.inr ⟨h5, Or.inl hout⟩)]
          refine ⟨done, blocks, ?_, hblocks, ?_, ?_, ?_, ?_⟩
          · rw [enqueued_append_step, henq]
          · have hcnew : curTrace { s with trace := s.trace ++ [(r.id, s.curAttempt)], dead := true } = (List.range (s.curAttempt + 1)).map (fun j => (r.id, j)) := by
              simp [curTrace, hq]
            rw [hcnew, htrace, hct]
            simp [List.range_succ]
          · intro r' hr' j hj
            simp only [hq, List.head?_cons, Option.some.injEq] at hr'
            subst hr'
            exact hheadside j hj
          · intro habs
            exact absurd habs (by simp [hq])
          · intro _
            simp [hq]

theorem QInv_runQ (ops : List QOp) : QInv ops (runQ ops) := by
  induction ops using List.reverseRecOn with
  | nil => exact QInv_init
  | append_singleton ops op ih =>
    rw [runQ_append]
    cases op with
    | put r => exact QInv_put ops (runQ ops) ih r
    | step => exact QInv_step ops (runQ ops) ih

/-- C3: per-destination uploads are delivered in enqueue order: the
server-visible trace of any producer/consumer schedule is the
concatenation, in enqueue order, of the completed requests' attempt
blocks — each block ending in that request's success, with all of its
retries inside the block — followed only by attempts of the request
currently at the head of the FIFO.  Hence if A is enqueued before B,
no attempt of B happens until A has completed all its attempts. -/
theorem C3_upload_fifo_order (ops : List QOp) :
    ∃ done blocks,
      enqueued ops = done ++ (runQ ops).queue ∧
      List.Forall₂ IsBlock done blocks ∧
      (runQ ops).trace = blocks.flatten ++ curTrace (runQ ops) ∧
      (∀ e, e ∈ curTrace (runQ ops) →
        ∃ r, (runQ ops).queue.head? = some r ∧ e.1 = r.id) := by
  obtain ⟨done, blocks, h1, h2, h3, _, _, _⟩ := QInv_runQ ops
  refine ⟨done, blocks, h1, h2, h3, ?_⟩
  intro e he
  unfold curTrace at he
  cases hh : (runQ ops).queue.head? with
  | none => rw [hh] at he; simp at he
  | some r =>
    rw [hh] at he
    simp only [List.mem_map] at he
    obtain ⟨j, _, hje⟩ := he
    exact ⟨r, rfl, by rw [← hje]⟩

/-! ## Helper lemmas for the log streamer: structure of the 2048 merge -/

/-- The merge loop only consolidates a prefix of the reversed list (=
a suffix of the chunk list): the result is one merged chunk followed by
the untouched remainder. -/
theorem mergeRevAux_structure (rest : List (List Bytes)) :
    ∀ a, ∃ k, k ≤ rest.length ∧
      mergeRevAux a rest = ((a :: rest.take k).reverse.flatten) :: rest.drop k := by
  induction rest with
  | nil => intro a; exact ⟨0, by omega, by simp [mergeRevAux]⟩
  | cons b t ih =>
    intro a
    by_cases h : a.length = b.length
    · obtain ⟨k, hk, hrec⟩ := ih (b ++ a)
      refine ⟨k + 1, by simp; omega, ?_⟩
      rw [show mergeRevAux a (b :: t) = mergeRevAux (b ++ a) t by
        simp [mergeRevAux, h]]
      rw [hrec]
      simp [List.flatten_append]
    · exact ⟨0, by omega, by simp [mergeRevAux, h]⟩


/-- Applied to `send_pending`'s input: the new chunk list keeps a
prefix of the old one and replaces the dropped suffix (plus the pending
buffer, as a single new block) by one merged chunk. -/
theorem spChunks_structure (s : LS) :
    ∃ m, m ≤ s.chunks.length ∧
      spChunks s = s.chunks.take m ++
        [(s.chunks.drop m).flatten ++ [s.pending]] := by
  have hrl : (s.chunks ++ [[s.pending]]).reverse = [s.pending] :: s.chunks.reverse := by
    simp
  obtain ⟨k, hk, hstruct⟩ := mergeRevAux_structure s.chunks.reverse [s.pending]
  rw [List.length_reverse] at hk
  refine ⟨s.chunks.length - k, by omega, ?_⟩
  rw [spChunks, hrl, show mergeRev ([s.pending] :: s.chunks.reverse) =
    mergeRevAux [s.pending] s.chunks.reverse from rfl, hstruct]
  rw [List.reverse_cons]
  congr 1
  · rw [List.drop_reverse, List.reverse_reverse]
  · congr 2
    rw [List.reverse_cons, List.flatten_append, List.take_reverse,
      List.reverse_reverse]
    simp

theorem chunkBytes_append (c d : List Bytes) :
    chunkBytes (c ++ d) = chunkBytes c + chunkBytes d := by
  simp [chunkBytes]

theorem chunkBytes_flatten (L : List (List Bytes)) :
    chunkBytes L.flatten = (L.map chunkBytes).sum := by
  induction L with
  | nil => rfl
  | cons c t ih => simp [List.flatten_cons, chunkBytes_append, ih]

theorem chunkBytes_eq_length_flatten (c : List Bytes) :
    chunkBytes c = c.flatten.length := by
  simp [chunkBytes, List.length_flatten]


theorem spChunks_ne_nil (s : LS) : spChunks s ≠ [] := by
  obtain ⟨m, _, hstruct⟩ := spChunks_structure s
  rw [hstruct]
  simp

theorem send_pending_eq (s : LS) :
    send_pending s =
      { chunks := spChunks s,
        suffixes := insertSuffix s.suffixes (.range (spStart s) (spEnd s)),
        pending := [],
        events := s.events ++
          [.put (.seg (spStart s) (spEnd s)) (spLast s),
           .put .chunks (strBytes (jsonDumps (spSizes s)))] } := by
  have hne : List.map chunkBytes (spChunks s) ≠ [] := by
    simp [spChunks_ne_nil s]
  rw [send_pending]
  rw [show (mergeRev ((s.chunks ++ [[s.pending]]).reverse)).reverse = spChunks s from rfl]
  rw [dif_neg hne]
  have hlast : (List.map chunkBytes (spChunks s)).getLast hne =
      (spSizes s).getLast?.getD 0 := by
    rw [show spSizes s = List.map chunkBytes (spChunks s) from rfl,
      List.getLast?_eq_getLast _ hne]
    rfl
  rw [hlast]
  rfl

/-- The bundled structural description of one flush: some suffix of the
chunk list (the last `chunks.length - m` chunks) is merged with the
pending buffer into the new last chunk. -/
theorem send_pending_struct (s : LS) :
    ∃ m, m ≤ s.chunks.length ∧
      spChunks s = s.chunks.take m ++ [(s.chunks.drop m).flatten ++ [s.pending]] ∧
      spSizes s = (sizesOf s).take m ++
        [((sizesOf s).drop m).sum + s.pending.length] := by
  obtain ⟨m, hm, hstruct⟩ := spChunks_structure s
  refine ⟨m, hm, hstruct, ?_⟩
  rw [spSizes, hstruct, List.map_append]
  congr 1
  · rw [List.map_take]
    rfl
  · simp only [List.map_cons, List.map_nil]
    congr 1
    rw [chunkBytes_append, chunkBytes_flatten, List.map_drop]
    simp [chunkBytes, sizesOf]

theorem flushed_length (s : LS) : (flushed s).length = (sizesOf s).sum := by
  rw [flushed, List.length_flatten, sizesOf]
  congr 1
  rw [List.map_map]
  apply List.map_congr_left
  intro c _
  exact (chunkBytes_eq_length_flatten c).symm

theorem flushed_spChunks (s : LS) :
    ((spChunks s).map List.flatten).flatten = flushed s ++ s.pending := by
  obtain ⟨m, _, hstruct, _⟩ := send_pending_struct s
  rw [hstruct, List.map_append, List.flatten_append]
  simp only [List.map_cons, List.map_nil, List.flatten_cons, List.flatten_nil,
    List.append_nil, List.flatten_append, List.flatten_flatten]
  rw [flushed]
  conv_rhs => rw [← List.take_append_drop m s.chunks]
  rw [List.map_append, List.flatten_append, List.append_assoc]

theorem spSizes_ne_nil (s : LS) : spSizes s ≠ [] := by
  simp [spSizes, spChunks_ne_nil s]

theorem spEnd_eq_sum (s : LS) : spEnd s = (spSizes s).sum := by
  rw [spEnd, spStart]
  obtain ⟨m, _, _, hsz⟩ := send_pending_struct s
  rw [hsz, List.dropLast_concat, List.getLast?_concat]
  simp

theorem spLast_eq (s : LS) :
    ∃ m, m ≤ s.chunks.length ∧
      spLast s = ((s.chunks.drop m).flatten).flatten ++ s.pending ∧
      spStart s = ((sizesOf s).take m).sum ∧
      spEnd s = (sizesOf s).sum + s.pending.length ∧
      spChunks s = s.chunks.take m ++ [(s.chunks.drop m).flatten ++ [s.pending]] ∧
      spSizes s = (sizesOf s).take m ++
        [((sizesOf s).drop m).sum + s.pending.length] := by
  obtain ⟨m, hm, hstruct, hsz⟩ := send_pending_struct s
  refine ⟨m, hm, ?_, ?_, ?_, hstruct, hsz⟩
  · rw [spLast, hstruct, List.getLast?_concat]
    simp [List.flatten_append]
  · rw [spStart, hsz, List.dropLast_concat]
  · rw [spEnd_eq_sum, hsz]
    simp only [List.sum_append, List.sum_cons, List.sum_nil, Nat.add_zero]
    have := List.take_append_drop m (sizesOf s)
    have hsum : ((sizesOf s).take m).sum + ((sizesOf s).drop m).sum = (sizesOf s).sum := by
      rw [← List.sum_append, this]
    omega

/-! ## The 2048 merge keeps a binary-counter shape of block counts -/


theorem mergeRevAux_counts (rest : List (List Bytes)) :
    ∀ a, (mergeRevAux a rest).map List.length =
      mergeRevCAux a.length (rest.map List.length) := by
  induction rest with
  | nil => intro a; rfl
  | cons b t ih =>
    intro a
    by_cases h : a.length = b.length
    · rw [show mergeRevAux a (b :: t) = mergeRevAux (b ++ a) t by
        simp [mergeRevAux, h]]
      rw [ih (b ++ a), List.map_cons,
        show mergeRevCAux a.length (b.length :: t.map List.length) =
          mergeRevCAux (b.length + a.length) (t.map List.length) by
          simp [mergeRevCAux, h]]
      rw [List.length_append]
    · simp [mergeRevAux, h, mergeRevCAux]

theorem spChunks_counts (s : LS) :
    ((spChunks s).map List.length).reverse =
      mergeRevCAux 1 ((s.chunks.map List.length).reverse) := by
  rw [spChunks]
  rw [show (s.chunks ++ [[s.pending]]).reverse = [s.pending] :: s.chunks.reverse by simp]
  rw [show mergeRev ([s.pending] :: s.chunks.reverse) =
    mergeRevAux [s.pending] s.chunks.reverse from rfl]
  rw [List.map_reverse, List.reverse_reverse, mergeRevAux_counts,
    List.map_reverse]
  rfl


theorem IsPow2.pos {p : Nat} (hp : IsPow2 p) : 1 ≤ p := by
  obtain ⟨k, rfl⟩ := hp
  exact Nat.one_le_two_pow

theorem pow2_double {p q : Nat} (hp : IsPow2 p) (hq : IsPow2 q) (h : p < q) :
    p + p ≤ q := by
  obtain ⟨i, rfl⟩ := hp
  obtain ⟨j, rfl⟩ := hq
  have hij : i < j := (Nat.pow_lt_pow_iff_right (by omega)).mp h
  calc 2 ^ i + 2 ^ i = 2 ^ (i + 1) := by ring
  _ ≤ 2 ^ j := Nat.pow_le_pow_right (by omega) (by omega)

theorem pow2_above {c : Nat} {y : Nat} (hy : IsPow2 y) (h : 2 ^ c < y) :
    2 ^ (c + 1) ≤ y := by
  obtain ⟨j, rfl⟩ := hy
  have : c < j := (Nat.pow_lt_pow_iff_right (by omega)).mp h
  exact Nat.pow_le_pow_right (by omega) (by omega)

theorem mergeRevCAux_spec :
    ∀ (r : List Nat) (x : Nat), BinRep r → IsPow2 x →
      (∀ y, r.head? = some y → x ≤ y) →
      BinRep (mergeRevCAux x r) ∧ (mergeRevCAux x r).sum = x + r.sum ∧
      (∀ z, (mergeRevCAux x r).head? = some z → x ≤ z) := by
  intro r
  induction r with
  | nil =>
    intro x _ hx _
    refine ⟨⟨fun c hc => by simpa [mergeRevCAux] using (List.mem_singleton.mp hc ▸ hx),
      by simp [mergeRevCAux]⟩, by simp [mergeRevCAux], ?_⟩
    intro z hz
    simp [mergeRevCAux] at hz
    omega
  | cons b rest ih =>
    intro x hbr hx hhead
    have hxb' : x ≤ b := hhead b rfl
    have hbp : IsPow2 b := hbr.1 b (List.mem_cons_self b rest)
    have hrest : BinRep rest :=
      ⟨fun c hc => hbr.1 c (List.mem_cons_of_mem b hc), hbr.2.tail⟩
    by_cases hxb : x = b
    · subst hxb
      rw [show mergeRevCAux x (x :: rest) = mergeRevCAux (x + x) rest by
        simp [mergeRevCAux]]
      have hdouble : IsPow2 (x + x) := by
        obtain ⟨k, rfl⟩ := hx
        exact ⟨k + 1, by ring⟩
      have hheadrest : ∀ y, rest.head? = some y → x + x ≤ y := by
        intro y hy
        have hlt : x < y := by
          cases rest with
          | nil => simp at hy
          | cons c t =>
            simp at hy
            subst hy
            exact (List.chain'_cons.mp hbr.2).1
        exact pow2_double hx (hrest.1 y (by
          cases rest with
          | nil => simp at hy
          | cons c t => simp at hy; simp [hy])) hlt
      obtain ⟨h1, h2, h3⟩ := ih (x + x) hrest hdouble hheadrest
      refine ⟨h1, by rw [h2]; simp; ring, ?_⟩
      intro z hz
      have := h3 z hz
      omega
    · rw [show mergeRevCAux x (b :: rest) = x :: b :: rest by
        simp [mergeRevCAux, hxb]]
      refine ⟨⟨?_, ?_⟩, by simp, ?_⟩
      · intro c hc
        rcases List.mem_cons.mp hc with rfl | hc'
        · exact hx
        · exact hbr.1 c hc'
      · rw [List.chain'_cons]
        exact ⟨by omega, hbr.2⟩
      · intro z hz
        simp at hz
        omega

theorem mergeRevCAux_sum : ∀ (r : List Nat) (x : Nat),
    (mergeRevCAux x r).sum = x + r.sum := by
  intro r
  induction r with
  | nil => intro x; simp [mergeRevCAux]
  | cons b rest ih =>
    intro x
    by_cases hxb : x = b
    · rw [show mergeRevCAux x (b :: rest) = mergeRevCAux (b + x) rest by
        simp [mergeRevCAux, hxb], ih (b + x)]
      simp
      omega
    · rw [show mergeRevCAux x (b :: rest) = x :: b :: rest by
        simp [mergeRevCAux, hxb]]
      rfl

theorem binRep_pow_le_sum :
    ∀ (r : List Nat), BinRep r → ∀ c, (∀ y ∈ r, 2 ^ c ≤ y) → r ≠ [] →
      2 ^ (c + r.length - 1) ≤ r.sum := by
  intro r
  induction r with
  | nil => intro _ _ _ habs; exact absurd rfl habs
  | cons x rest ih =>
    intro hbr c hc _
    by_cases hrest : rest = []
    · subst hrest
      simpa using hc x (List.mem_cons_self x [])
    · have hpair : ∀ y ∈ rest, x < y := by
        have hpw := (List.chain'_iff_pairwise.mp hbr.2)
        exact fun y hy => (List.pairwise_cons.mp hpw).1 y hy
      have hrestbr : BinRep rest :=
        ⟨fun y hy => hbr.1 y (List.mem_cons_of_mem x hy), hbr.2.tail⟩
      have hc' : ∀ y ∈ rest, 2 ^ (c + 1) ≤ y := by
        intro y hy
        refine pow2_above (hrestbr.1 y hy) ?_
        have := hc x (List.mem_cons_self x rest)
        have := hpair y hy
        omega
      have hstep := ih hrestbr (c + 1) hc' hrest
      have hlen : rest.length ≥ 1 := List.length_pos.mpr hrest
      have harith : c + 1 + rest.length - 1 = c + (x :: rest).length - 1 := by
        simp only [List.length_cons]
        omega
      rw [harith] at hstep
      simp only [List.sum_cons]
      omega

theorem binRep_length_le_log2 (r : List Nat) (h : BinRep r) (hne : r ≠ []) :
    r.length ≤ Nat.log2 r.sum + 1 := by
  have h1 : ∀ y ∈ r, 2 ^ 0 ≤ y := by
    intro y hy
    simpa using (h.1 y hy).pos
  have h2 := binRep_pow_le_sum r h 0 h1 hne
  simp only [Nat.zero_add] at h2
  have hsum : r.sum ≠ 0 := by
    have : (1 : Nat) ≤ 2 ^ (r.length - 1) := Nat.one_le_two_pow
    omega
  rw [Nat.log2_eq_log_two]
  have := (Nat.pow_le_iff_le_log (by omega) hsum).mp h2
  omega

/-! ## The LogStreamer run invariant -/

theorem flatten_map_length (L : List (List Bytes)) :
    ((L.map List.flatten).flatten).length = (L.map chunkBytes).sum := by
  rw [List.length_flatten, List.map_map]
  congr 1
  apply List.map_congr_left
  intro c _
  exact (chunkBytes_eq_length_flatten c).symm

theorem flushed_send_pending (s : LS) :
    flushed (send_pending s) = flushed s ++ s.pending := by
  rw [flushed, send_pending_eq]
  exact flushed_spChunks s

theorem mem_insertSuffix (l : List Suffix) (x y : Suffix) (h : y ∈ l) :
    y ∈ insertSuffix l x := by
  unfold insertSuffix
  split
  · exact h
  · exact List.mem_append_left _ h

theorem mem_insertSuffix_self (l : List Suffix) (x : Suffix) :
    x ∈ insertSuffix l x := by
  unfold insertSuffix
  split
  · assumption
  · exact List.mem_append_right _ (List.mem_singleton_self x)

theorem lastManifest_append_flush (evs : List Ev) (a b : Nat) (d1 d2 : Bytes) :
    lastManifest (evs ++ [.put (.seg a b) d1, .put .chunks d2]) = some d2 := by
  simp [lastManifest, List.foldl_append]


theorem LSInv_init : LSInv initLS where
  names := by intro e he; simp [initLS] at he
  slices := by intro a b d h; simp [initLS] at h
  cover := by intro i c h; simp [initLS] at h
  manifest0 := fun _ => rfl
  manifest := by intro h; simp [initLS] at h
  sufSeg := by intro a b d h; simp [initLS] at h
  chunksBase := by simp [initLS]
  binShape := ⟨by simp [initLS], by simp [initLS]⟩

/-- The invariant only talks about `chunks`, `suffixes` and `events`,
so replacing `pending` preserves it. -/
theorem LSInv_set_pending (s : LS) (q : Bytes) (h : LSInv s) :
    LSInv { s with pending := q } where
  names := h.names
  slices := h.slices
  cover := h.cover
  manifest0 := h.manifest0
  manifest := h.manifest
  sufSeg := h.sufSeg
  chunksBase := h.chunksBase
  binShape := h.binShape

theorem sum_take_add_sum_drop (l : List Nat) (m : Nat) :
    (l.take m).sum + (l.drop m).sum = l.sum := by
  rw [← List.sum_append, List.take_append_drop]

theorem flatten_flatten_length (L : List (List Bytes)) :
    L.flatten.flatten.length = (L.map chunkBytes).sum := by
  rw [List.flatten_flatten, flatten_map_length]

theorem spLast_length (s : LS) :
    spStart s + (spLast s).length = spEnd s := by
  obtain ⟨m, hm, hlast, hstart, hend, hchunks, hsizes⟩ := spLast_eq s
  rw [hlast, hstart, hend, List.length_append, flatten_flatten_length,
    List.map_drop]
  rw [show List.map chunkBytes s.chunks = sizesOf s from rfl]
  have := sum_take_add_sum_drop (sizesOf s) m
  omega

theorem flushed_take_decomp (s : LS) (m : Nat) :
    flushed s = ((s.chunks.take m).map List.flatten).flatten ++
      ((s.chunks.drop m).map List.flatten).flatten := by
  rw [flushed]
  conv_lhs => rw [← List.take_append_drop m s.chunks]
  rw [List.map_append, List.flatten_append]

theorem send_pending_chunks (s : LS) : (send_pending s).chunks = spChunks s := by
  rw [send_pending_eq]

theorem send_pending_pending (s : LS) : (send_pending s).pending = [] := by
  rw [send_pending_eq]

theorem send_pending_suffixes (s : LS) :
    (send_pending s).suffixes =
      insertSuffix s.suffixes (.range (spStart s) (spEnd s)) := by
  rw [send_pending_eq]

theorem send_pending_events (s : LS) :
    (send_pending s).events = s.events ++
      [.put (.seg (spStart s) (spEnd s)) (spLast s),
       .put .chunks (strBytes (jsonDumps (spSizes s)))] := by
  rw [send_pending_eq]

theorem sizesOf_send_pending (s : LS) : sizesOf (send_pending s) = spSizes s := by
  rw [sizesOf, send_pending_chunks]
  rfl

theorem LSInv_send_pending (s : LS) (h : LSInv s) : LSInv (send_pending s) := by
  obtain ⟨m, hm, hlast, hstart, hend, hchunks, hsizes⟩ := spLast_eq s
  have hflen : (flushed s).length = (sizesOf s).sum := flushed_length s
  have hTlen : (s.chunks.take m).length = m := by
    rw [List.length_take]
    omega
  have hSm : m ≤ (sizesOf s).length := by
    rw [sizesOf, List.length_map]
    exact hm
  have hTslen : ((sizesOf s).take m).length = m := by
    rw [List.length_take]
    omega
  have hszlen : (spSizes s).length = m + 1 := by
    rw [hsizes, List.length_append, hTslen]
    rfl
  have hpfx : ∀ j, j ≤ m → pfxSum (spSizes s) j = pfxSum (sizesOf s) j := by
    intro j hj
    rw [pfxSum, pfxSum, hsizes,
      List.take_append_of_le_length (by rw [hTslen]; omega), List.take_take,
      Nat.min_eq_left hj]
  have hpfxm : pfxSum (spSizes s) m = spStart s := by
    rw [hpfx m (le_refl m), hstart, pfxSum]
  have hpfxm1 : pfxSum (spSizes s) (m + 1) = spEnd s := by
    rw [pfxSum, List.take_of_length_le (by omega), ← spEnd_eq_sum]
  have hCflat : ((s.chunks.drop m).flatten ++ [s.pending]).flatten = spLast s := by
    rw [List.flatten_append, hlast]
    simp
  constructor
  · intro e he
    rw [send_pending_events] at he
    rcases List.mem_append.mp he with hold | hnew
    · exact h.names e hold
    · rcases List.mem_cons.mp hnew with rfl | hnew'
      · exact Or.inr ⟨spStart s, spEnd s, spLast s, rfl⟩
      · rcases List.mem_singleton.mp hnew' with rfl
        exact Or.inl ⟨_, rfl⟩
  · intro a b d hmem
    rw [send_pending_events] at hmem
    rw [flushed_send_pending]
    rcases List.mem_append.mp hmem with hold | hnew
    · obtain ⟨h1, h2, h3⟩ := h.slices a b d hold
      refine ⟨by rw [List.length_append]; omega, h2, ?_⟩
      rw [List.take_append_of_le_length h1]
      exact h3
    · have hPlen : (flushed s ++ s.pending).length = spEnd s := by
        rw [List.length_append, hflen, hend]
      rcases List.mem_cons.mp hnew with heq | hnew'
      · injection heq with heq1 heq2
        injection heq1 with ha hb
        subst ha
        subst hb
        subst heq2
        refine ⟨by omega, by have := spLast_length s; omega, ?_⟩
        rw [← hPlen, List.take_length,
          flushed_take_decomp s m, List.append_assoc]
        have hAlen : (((s.chunks.take m).map List.flatten).flatten).length =
            spStart s := by
          rw [flatten_map_length, List.map_take,
            show List.map chunkBytes s.chunks = sizesOf s from rfl, hstart]
        rw [← hAlen, List.drop_left]
        rw [hlast, List.flatten_flatten]
      · rcases List.mem_singleton.mp hnew' with heq
        exact absurd heq (by simp)
  · intro i c hc
    rw [send_pending_chunks, hchunks] at hc
    rw [sizesOf_send_pending, send_pending_events]
    rcases Nat.lt_trichotomy i m with hlt | heq | hgt
    · have hc2 : s.chunks[i]? = some c := by
        rw [List.getElem?_append_left (by rw [hTlen]; omega),
          List.getElem?_take_of_lt hlt] at hc
        exact hc
      have hold := h.cover i c hc2
      rw [hpfx i (by omega), hpfx (i + 1) (by omega)]
      exact List.mem_append_left _ hold
    · rw [heq] at hc ⊢
      rw [List.getElem?_append_right (le_of_eq hTlen)] at hc
      rw [hTlen, Nat.sub_self] at hc
      simp only [List.getElem?_cons_zero, Option.some.injEq] at hc
      subst hc
      rw [hpfxm, hpfxm1, hCflat]
      exact List.mem_append_right _ (List.mem_cons_self _ _)
    · exfalso
      rw [List.getElem?_eq_none (by rw [List.length_append, hTlen]; simp; omega)] at hc
      exact Option.noConfusion hc
  · intro habs
    rw [send_pending_chunks] at habs
    exact absurd habs (spChunks_ne_nil s)
  · intro _
    rw [send_pending_events, sizesOf_send_pending]
    exact lastManifest_append_flush s.events (spStart s) (spEnd s) (spLast s) _
  · intro a b d hmem
    rw [send_pending_events] at hmem
    rw [send_pending_suffixes]
    rcases List.mem_append.mp hmem with hold | hnew
    · exact mem_insertSuffix _ _ _ (h.sufSeg a b d hold)
    · rcases List.mem_cons.mp hnew with heq | hnew'
      · injection heq with heq1 _
        injection heq1 with ha hb
        subst ha
        subst hb
        exact mem_insertSuffix_self _ _
      · rcases List.mem_singleton.mp hnew' with heq
        exact absurd heq (by simp)
  · rw [send_pending_suffixes]
    exact mem_insertSuffix _ _ _ h.chunksBase
  · rw [send_pending_chunks, spChunks_counts]
    refine (mergeRevCAux_spec _ 1 h.binShape ⟨0, rfl⟩ ?_).1
    intro y hy
    exact (h.binShape.1 y (List.mem_of_mem_head? hy)).pos

theorem LSInv_writeB (d : Bytes) (s : LS) (h : LSInv s) : LSInv (writeB d s) := by
  rw [writeB]
  split
  · exact LSInv_send_pending _ (LSInv_set_pending s _ h)
  · exact LSInv_set_pending s _ h

theorem runLS_append (ops : List SOp) (op : SOp) :
    runLS (ops ++ [op]) = stepLS (runLS ops) op := by
  simp [runLS, List.foldl_append]

theorem LSInv_runLS (ops : List SOp) : LSInv (runLS ops) := by
  induction ops using List.reverseRecOn with
  | nil => exact LSInv_init
  | append_singleton ops op ih =>
    rw [runLS_append]
    cases op with
    | write d => exact LSInv_writeB d _ ih
    | flush => exact LSInv_send_pending _ ih

theorem allInput_append_write (ops : List SOp) (d : Bytes) :
    allInput (ops ++ [.write d]) = allInput ops ++ d := by
  simp [allInput, List.foldl_append]

theorem allInput_append_flush (ops : List SOp) :
    allInput (ops ++ [.flush]) = allInput ops := by
  simp [allInput, List.foldl_append]

/-- Everything ever written splits into the flushed part and the
pending buffer. -/
theorem flushed_pending_runLS (ops : List SOp) :
    flushed (runLS ops) ++ (runLS ops).pending = allInput ops := by
  induction ops using List.reverseRecOn with
  | nil => rfl
  | append_singleton ops op ih =>
    rw [runLS_append]
    cases op with
    | flush =>
      rw [allInput_append_flush,
        show stepLS (runLS ops) .flush = send_pending (runLS ops) from rfl,
        flushed_send_pending, send_pending_pending, List.append_nil]
      exact ih
    | write d =>
      rw [allInput_append_write,
        show stepLS (runLS ops) (.write d) = writeB d (runLS ops) from rfl,
        writeB]
      split
      · rw [flushed_send_pending, send_pending_pending, List.append_nil]
        rw [show flushed { runLS ops with pending := (runLS ops).pending ++ d } =
          flushed (runLS ops) from rfl]
        rw [show ({ runLS ops with pending := (runLS ops).pending ++ d } : LS).pending =
          (runLS ops).pending ++ d from rfl]
        rw [← List.append_assoc, ih]
      · rw [show flushed { runLS ops with pending := (runLS ops).pending ++ d } =
          flushed (runLS ops) from rfl]
        rw [show ({ runLS ops with pending := (runLS ops).pending ++ d } : LS).pending =
          (runLS ops).pending ++ d from rfl]
        rw [← List.append_assoc, ih]

/-- C8 (amended): on every flush, `send_pending` enqueues exactly two
destination writes: the new segment file first, at position
`|events before|`, and the `log.chunks` manifest immediately after it.
(The claim as stated — manifest before segment — is refuted by
`C8_counterexample`.) -/
theorem C8_segment_write_before_manifest (s : LS) :
    ∃ i, (send_pending s).events[i]? =
        some (.put (.seg (spStart s) (spEnd s)) (spLast s)) ∧
      (send_pending s).events[i + 1]? =
        some (.put .chunks (strBytes (jsonDumps (spSizes s)))) ∧
      (send_pending s).events.length = i + 2 ∧
      (send_pending s).events.take i = s.events := by
  refine ⟨s.events.length, ?_, ?_, ?_, ?_⟩
  · rw [send_pending_events, List.getElem?_append_right (le_refl _), Nat.sub_self]
    rfl
  · rw [send_pending_events,
      List.getElem?_append_right (by omega), Nat.add_sub_cancel_left]
    rfl
  · rw [send_pending_events, List.length_append]
    rfl
  · rw [send_pending_events, List.take_left]

/-- C8 counterexample: on the concrete run that writes one byte and
flushes, `send_pending` writes the segment `log.0-1` first and the
manifest `log.chunks` second — there is no flush-trace position where
a manifest write precedes a segment write, refuting the claim that
`log.chunks` is written before the new segment file. -/
theorem C8_counterexample :
    (runLS [.write [65], .flush]).events =
      [.put (.seg 0 1) [65], .put .chunks (strBytes (jsonDumps [1]))] ∧
    ¬ (∃ i j : Nat, i < j ∧
      (∃ d, (runLS [.write [65], .flush]).events[i]? = some (Ev.put .chunks d)) ∧
      (∃ a b d, (runLS [.write [65], .flush]).events[j]? =
        some (Ev.put (.seg a b) d))) := by
  have hev : (runLS [.write [65], .flush]).events =
      [.put (.seg 0 1) [65], .put .chunks (strBytes (jsonDumps [1]))] := by decide
  refine ⟨hev, ?_⟩
  rintro ⟨i, j, hij, ⟨d, hi⟩, ⟨a, b, d2, hj⟩⟩
  rw [hev] at hi hj
  rcases j with _ | _ | n
  · omega
  · simp at hj
  · simp at hj

/-- C1: for every sequence of writes and flushes followed by `close()`:
the close appends exactly one write of the blob `log`, holding every
byte ever passed to `write` (flushed or still pending), followed by the
deletes of all recorded `log.<suffix>` blobs; the trace before close
holds no delete and no `log` write, so the `log` write is the unique
one and precedes every delete; and every `log.<a>-<b>` segment blob
ever written gets a delete enqueued. -/
theorem C1_close_writes_log_once_then_deletes (ops : List SOp) :
    (closeLS (runLS ops)).events =
      (runLS ops).events ++ [.put .log (allInput ops)] ++
        ((runLS ops).suffixes.map (fun suffix => Ev.del suffix.blob)) ∧
    (∀ e ∈ (runLS ops).events, ∀ nm, e ≠ Ev.del nm) ∧
    (∀ e ∈ (runLS ops).events, ∀ d, e ≠ Ev.put .log d) ∧
    ((closeLS (runLS ops)).events.filter isLogPut).length = 1 ∧
    (∀ a b d, Ev.put (.seg a b) d ∈ (runLS ops).events →
      Ev.del (.seg a b) ∈
        (runLS ops).suffixes.map (fun suffix => Ev.del suffix.blob)) := by
  have hinv := LSInv_runLS ops
  have hev : (closeLS (runLS ops)).events =
      (runLS ops).events ++ [.put .log (allInput ops)] ++
        ((runLS ops).suffixes.map (fun suffix => Ev.del suffix.blob)) := by
    rw [closeLS]
    rw [show ((runLS ops).chunks.map (fun chunk => chunk.flatten)).flatten ++
        (runLS ops).pending = allInput ops from flushed_pending_runLS ops]
  have hnames := hinv.names
  refine ⟨hev, ?_, ?_, ?_, ?_⟩
  · intro e he nm
    rcases hnames e he with ⟨d, rfl⟩ | ⟨a, b, d, rfl⟩ <;> simp
  · intro e he d
    rcases hnames e he with ⟨d2, rfl⟩ | ⟨a, b, d2, rfl⟩ <;> simp
  · rw [hev, List.filter_append, List.filter_append]
    have h1 : (runLS ops).events.filter isLogPut = [] :=
      List.filter_eq_nil_iff.mpr (fun e he => by
        rcases hnames e he with ⟨d, rfl⟩ | ⟨a, b, d, rfl⟩ <;> simp [isLogPut])
    have h2 : ((runLS ops).suffixes.map
        (fun suffix => Ev.del suffix.blob)).filter isLogPut = [] :=
      List.filter_eq_nil_iff.mpr (fun e he => by
        rcases List.mem_map.mp he with ⟨suffix, _, rfl⟩
        simp [isLogPut])
    rw [h1, h2]
    rfl
  · intro a b d hmem
    exact List.mem_map.mpr ⟨.range a b, hinv.sufSeg a b d hmem, rfl⟩

/-- C2: after every flush, the `log.chunks` manifest lists the byte
size of each chunk group in order; every chunk group `i` has a segment
blob `log.<S_i>-<S_{i+1}>` (consecutive prefix-sum ranges) written with
exactly that group's bytes, so their concatenation is the flushed
prefix, which equals everything streamed so far; the flush itself wrote
only the last group's segment; and a segment name is never written
twice with different contents. -/
theorem C2_chunk_manifest_invariant (ops : List SOp) :
    lastManifest (runLS (ops ++ [.flush])).events =
      some (strBytes (jsonDumps (sizesOf (runLS (ops ++ [.flush]))))) ∧
    (∀ i c, (runLS (ops ++ [.flush])).chunks[i]? = some c →
      Ev.put (.seg (pfxSum (sizesOf (runLS (ops ++ [.flush]))) i)
          (pfxSum (sizesOf (runLS (ops ++ [.flush]))) (i + 1))) c.flatten ∈
        (runLS (ops ++ [.flush])).events) ∧
    flushed (runLS (ops ++ [.flush])) = allInput (ops ++ [.flush]) ∧
    (runLS (ops ++ [.flush])).pending = [] ∧
    (runLS (ops ++ [.flush])).events = (runLS ops).events ++
      [.put (.seg (spStart (runLS ops)) (spEnd (runLS ops)))
        (spLast (runLS ops)),
       .put .chunks (strBytes (jsonDumps (spSizes (runLS ops))))] ∧
    (∀ a b d1 d2, Ev.put (.seg a b) d1 ∈ (runLS (ops ++ [.flush])).events →
      Ev.put (.seg a b) d2 ∈ (runLS (ops ++ [.flush])).events → d1 = d2) := by
  have hstep : runLS (ops ++ [.flush]) = send_pending (runLS ops) :=
    runLS_append ops .flush
  have hinv := LSInv_runLS (ops ++ [.flush])
  refine ⟨?_, hinv.cover, ?_, ?_, ?_, ?_⟩
  · refine hinv.manifest ?_
    rw [hstep, send_pending_chunks]
    exact spChunks_ne_nil _
  · have hp : (runLS (ops ++ [.flush])).pending = [] := by
      rw [hstep, send_pending_pending]
    have htot := flushed_pending_runLS (ops ++ [.flush])
    rw [hp, List.append_nil] at htot
    exact htot
  · rw [hstep, send_pending_pending]
  · rw [hstep, send_pending_events]
  · intro a b d1 d2 h1 h2
    obtain ⟨_, _, e1⟩ := hinv.slices a b d1 h1
    obtain ⟨_, _, e2⟩ := hinv.slices a b d2 h2
    rw [e1, e2]

/-- Witness for C2: on the one-byte run, the first chunk group's
segment blob is written with that group's bytes. -/
theorem C2_chunk_manifest_invariant_witness :
    Ev.put (.seg (pfxSum (sizesOf (runLS ([SOp.write [65]] ++ [SOp.flush]))) 0)
        (pfxSum (sizesOf (runLS ([SOp.write [65]] ++ [SOp.flush]))) (0 + 1)))
      ([[65]] : List Bytes).flatten ∈
      (runLS ([SOp.write [65]] ++ [SOp.flush])).events :=
  (C2_chunk_manifest_invariant [SOp.write [65]]).2.1 0 [[65]] (by decide)


/-- In the equal-chunk scenario the pending buffer is empty after each
round and the total block count equals the number of flushes. -/
theorem scenario_state (d : Bytes) (hd : d.length ≤ SIZE_LIMIT) :
    ∀ N, (runLS (scenarioOps d N)).pending = [] ∧
      (((runLS (scenarioOps d N)).chunks.map List.length).reverse).sum = N := by
  intro N
  induction N with
  | zero => exact ⟨rfl, rfl⟩
  | succ n ih =>
    obtain ⟨hp, hsum⟩ := ih
    have h1 : runLS (scenarioOps d (n + 1)) =
        send_pending (writeB d (runLS (scenarioOps d n))) := by
      rw [scenarioOps,
        show [SOp.write d, SOp.flush] = [SOp.write d] ++ [SOp.flush] from rfl,
        ← List.append_assoc, runLS_append, runLS_append]
      rfl
    have h2 : (writeB d (runLS (scenarioOps d n))).chunks =
        (runLS (scenarioOps d n)).chunks := by
      rw [writeB]
      split
      next hcond =>
        exfalso
        simp only [hp, List.nil_append] at hcond
        omega
      next hcond => rfl
    constructor
    · rw [h1, send_pending_pending]
    · rw [h1, show (send_pending (writeB d (runLS (scenarioOps d n)))).chunks =
        spChunks (writeB d (runLS (scenarioOps d n))) from send_pending_chunks _,
        spChunks_counts, mergeRevCAux_sum, h2, hsum]
      omega

/-- C7 (amended): after `N` equal-sized flushed chunks, the number of
chunk groups — the segments listed by the `log.chunks` manifest, which
are all a reader must fetch — is at most `⌈log2 N⌉ + 1`.  (The claim as
stated, about blobs simultaneously *present*, is refuted by
`C7_counterexample`: flushed segments persist until close.) -/
theorem C7_manifest_chunk_count_bound (N : Nat) (d : Bytes) (hN : 1 ≤ N)
    (hd : d.length ≤ SIZE_LIMIT) :
    (runLS (scenarioOps d N)).chunks.length ≤ Nat.clog 2 N + 1 ∧
    (sizesOf (runLS (scenarioOps d N))).length =
      (runLS (scenarioOps d N)).chunks.length := by
  have hinv := (LSInv_runLS (scenarioOps d N)).binShape
  obtain ⟨_, hsum⟩ := scenario_state d hd N
  have hrne : (((runLS (scenarioOps d N)).chunks.map List.length).reverse) ≠ [] := by
    intro habs
    rw [habs] at hsum
    simp at hsum
    omega
  have hlen := binRep_length_le_log2 _ hinv hrne
  rw [hsum] at hlen
  have hlog : Nat.log2 N ≤ Nat.clog 2 N := by
    rw [Nat.log2_eq_log_two]
    exact Nat.log_le_clog 2 N
  have hrlen : (((runLS (scenarioOps d N)).chunks.map List.length).reverse).length =
      (runLS (scenarioOps d N)).chunks.length := by
    rw [List.length_reverse, List.length_map]
  constructor
  · omega
  · rw [sizesOf, List.length_map]

/-- C7 counterexample: writing 4 equal chunks (flushing each) leaves 4
segment blobs simultaneously present at the destination — nothing is
deleted before close — exceeding the claimed bound `⌈log2 4⌉ + 1 = 3`. -/
theorem C7_counterexample :
    segCount (runLS (scenarioOps [0] 4)).events = 4 ∧
    Nat.clog 2 4 + 1 = 3 ∧ ¬ (4 ≤ 3) := by
  refine ⟨by decide, ?_, by omega⟩
  have h1 : Nat.clog 2 4 ≤ 2 := (Nat.le_pow_iff_clog_le (by omega)).mp (by norm_num)
  have h2 : 1 < Nat.clog 2 4 := (Nat.pow_lt_iff_lt_clog (by omega)).mp (by norm_num)
  omega

/-- Witness for C7 at `N = 4`. -/
theorem C7_manifest_chunk_count_bound_witness :
    (runLS (scenarioOps [0] 4)).chunks.length ≤ Nat.clog 2 4 + 1 :=
  (C7_manifest_chunk_count_bound 4 [0] (by omega) (by decide)).1

/-- Witness for C1 on a concrete run. -/
theorem C1_close_writes_log_once_then_deletes_witness :
    (closeLS (runLS [SOp.write [65], SOp.flush])).events =
      (runLS [SOp.write [65], SOp.flush]).events ++
        [.put .log (allInput [SOp.write [65], SOp.flush])] ++
        ((runLS [SOp.write [65], SOp.flush]).suffixes.map
          (fun suffix => Ev.del suffix.blob)) :=
  (C1_close_writes_log_once_then_deletes [SOp.write [65], SOp.flush]).1

/-- Witness for C3 on a concrete schedule with a retried request. -/
theorem C3_upload_fifo_order_witness :
    ∃ done blocks,
      enqueued [QOp.put ⟨1, [.respErr 503]⟩, QOp.put ⟨2, []⟩, QOp.step, QOp.step,
          QOp.step] =
        done ++ (runQ [QOp.put ⟨1, [.respErr 503]⟩, QOp.put ⟨2, []⟩, QOp.step,
          QOp.step, QOp.step]).queue ∧
      List.Forall₂ IsBlock done blocks ∧
      (runQ [QOp.put ⟨1, [.respErr 503]⟩, QOp.put ⟨2, []⟩, QOp.step, QOp.step,
        QOp.step]).trace = blocks.flatten ++
        curTrace (runQ [QOp.put ⟨1, [.respErr 503]⟩, QOp.put ⟨2, []⟩, QOp.step,
          QOp.step, QOp.step]) ∧
      (∀ e, e ∈ curTrace (runQ [QOp.put ⟨1, [.respErr 503]⟩, QOp.put ⟨2, []⟩,
          QOp.step, QOp.step, QOp.step]) →
        ∃ r, (runQ [QOp.put ⟨1, [.respErr 503]⟩, QOp.put ⟨2, []⟩, QOp.step,
          QOp.step, QOp.step]).queue.head? = some r ∧ e.1 = r.id) :=
  C3_upload_fifo_order _
